import Mathlib

/-!
Verification of the capture-and-classify pipeline of `tools/rawansi.py`
(`RawANSICapture`): the ANSI escape-sequence scanner `find_ansi_sequences`,
the classifier `describe_sequence`, the decode step and descriptor handling of
`capture_command_output`, the interactive relay loop of `run_interactive`, and
the log-filename sanitizer `generate_log_filename`.

Python strings are embedded as `List Char` (the scanner and describer operate
on character offsets of a `str`), bytes as `List Nat` (each 0..255).
-/

namespace Rawansi

/-- One record of the list built by `find_ansi_sequences`: the Python dict
`{'sequence': seq, 'start': start, 'end': end, 'description': description,
'repr': repr(seq)}`.  `end` is a Lean keyword, embedded as `stop`; the `repr`
key (Python quoting of `sequence`, pure presentation) is not carried. -/
structure SeqMatch where
  sequence : List Char
  start : Nat
  stop : Nat
  description : String
  deriving DecidableEq

/-- The `descriptions` dict of `describe_sequence` plus its
`descriptions.get(command, f'CSI {command} with params "{params}"')` fallback.
`command` is `content[-1]`, `params` is `content[:-1]`.  Python's
`params or "1"` (resp. `"0"`) is the emptiness test on `params`; the dict
lookup is embedded as a match over the dict's keys with the `get` default as
catch-all.  String appends are written right-associated (same string value
as the Python f-strings). -/
def csiDescription (command : Char) (params : List Char) : String :=
  match command with
  | 'A' => "Cursor Up " ++ ((if params = [] then "1" else ⟨params⟩) ++ " lines")
  | 'B' => "Cursor Down " ++ ((if params = [] then "1" else ⟨params⟩) ++ " lines")
  | 'C' => "Cursor Forward " ++ ((if params = [] then "1" else ⟨params⟩) ++ " columns")
  | 'D' => "Cursor Back " ++ ((if params = [] then "1" else ⟨params⟩) ++ " columns")
  | 'E' => "Cursor Next Line " ++ (if params = [] then "1" else ⟨params⟩)
  | 'F' => "Cursor Previous Line " ++ (if params = [] then "1" else ⟨params⟩)
  | 'G' => "Cursor Horizontal Absolute column " ++ (if params = [] then "1" else ⟨params⟩)
  | 'H' =>
    -- params.split(";")[0] if ";" in params else params or "1" ; and
    -- params.split(";")[1] if ";" in params and len(params.split(";")) > 1 else "1"
    "Cursor Position row " ++
      ((if ';' ∈ params then (⟨(splitSemi params).headD []⟩ : String)
        else if params = [] then "1" else ⟨params⟩) ++
       (", col " ++
        (if ';' ∈ params ∧ 1 < (splitSemi params).length
         then (⟨(splitSemi params).getD 1 []⟩ : String) else "1")))
  | 'f' =>
    "Cursor Position row " ++
      ((if ';' ∈ params then (⟨(splitSemi params).headD []⟩ : String)
        else if params = [] then "1" else ⟨params⟩) ++
       (", col " ++
        (if ';' ∈ params ∧ 1 < (splitSemi params).length
         then (⟨(splitSemi params).getD 1 []⟩ : String) else "1")))
  | 'J' =>
    "Erase Display " ++ ((if params = [] then "0" else ⟨params⟩) ++ " (0=cursor to end, 1=start to cursor, 2=entire screen)")
  | 'K' =>
    "Erase Line " ++ ((if params = [] then "0" else ⟨params⟩) ++ " (0=cursor to end, 1=start to cursor, 2=entire line)")
  | 's' => "Save Cursor Position"
  | 'u' => "Restore Cursor Position"
  | 'm' =>
    if params = [] then "Reset Graphics Mode" else "Set Graphics Mode " ++ (⟨params⟩ : String)
  | 'h' => "Set Mode " ++ (⟨params⟩ : String)
  | 'l' => "Reset Mode " ++ (⟨params⟩ : String)
  | _ => "CSI " ++ ((⟨[command]⟩ : String) ++ (" with params \x22" ++ ((⟨params⟩ : String) ++ "\x22")))
where
  /-- Python `str.split(";")`: `"".split(";") = [""]`, `";".split(";") = ["", ""]`. -/
  splitSemi : List Char → List (List Char)
  | [] => [[]]
  | c :: cs =>
    if c = ';' then [] :: splitSemi cs
    else match splitSemi cs with
         | [] => [[c]]
         | r :: rs => (c :: r) :: rs

/-- `RawANSICapture.describe_sequence`.  Branches mirror the Python source:
not starting with ESC; `ESC [` with empty/nonempty content (command byte is
`content[-1]`, params `content[:-1]`); `ESC ]` (OSC, payload `seq[2:-1]` when
bell-terminated else `seq[2:]`); generic fallback echoing `seq[1:]`. -/
def describe_sequence (seq : List Char) : String :=
  match seq with
  | [] => "Not an ANSI sequence"
  | c0 :: rest =>
    if c0 = '\x1b' then
      match rest with
      | [] => "Other ANSI sequence: " ++ (⟨rest⟩ : String)
      | c1 :: rest2 =>
        if c1 = '[' then
          match rest2 with
          | [] => "Incomplete CSI sequence"
          | c :: cs => csiDescription ((c :: cs).getLast (List.cons_ne_nil c cs)) (c :: cs).dropLast
        else if c1 = ']' then
          "OSC (Operating System Command): " ++
            (⟨if seq.getLast? = some '\x07' then (seq.drop 2).dropLast else seq.drop 2⟩ : String)
        else
          "Other ANSI sequence: " ++ (⟨rest⟩ : String)
    else "Not an ANSI sequence"

/-- Regex class `[0-?]` (0x30-0x3F): CSI parameter bytes. -/
def isCsiParamByte (c : Char) : Bool := 0x30 ≤ c.toNat && c.toNat ≤ 0x3F

/-- Regex class from space to slash (0x20-0x2F): CSI intermediate bytes. -/
def isCsiInterByte (c : Char) : Bool := 0x20 ≤ c.toNat && c.toNat ≤ 0x2F

/-- Regex class `[@-~]` (0x40-0x7E): CSI final bytes. -/
def isCsiFinalByte (c : Char) : Bool := 0x40 ≤ c.toNat && c.toNat ≤ 0x7E

/-- Regex class `[@-Z\\-_]` (0x40-0x5A and 0x5C-0x5F): single-character
escape finals.  Note `[` (0x5B) is excluded. -/
def isSingleEscByte (c : Char) : Bool :=
  (0x40 ≤ c.toNat && c.toNat ≤ 0x5A) || (0x5C ≤ c.toNat && c.toNat ≤ 0x5F)

/-- Regex class `[PX^_]`: introducers of the other string sequences. -/
def isStrCmdByte (c : Char) : Bool := c = 'P' || c = 'X' || c = '^' || c = '_'

/-- CSI alternative of the scanner regex (open bracket, then parameter bytes
0x30-0x3F, then intermediate bytes 0x20-0x2F, then a final byte 0x40-0x7E),
applied after the ESC byte.  The three character classes are pairwise disjoint and disjoint
from the final class, so Python's greedy backtracking matcher is equivalent
to this maximal-munch form: take the maximal run of parameter bytes, then the
maximal run of intermediate bytes, then require one final byte. -/
def matchCsi (l : List Char) : Option (List Char × List Char) :=
  match l with
  | [] => none
  | c :: r =>
    if c = '[' then
      match (r.dropWhile isCsiParamByte).dropWhile isCsiInterByte with
      | [] => none
      | f :: r3 =>
        if isCsiFinalByte f then
          some ('[' :: (r.takeWhile isCsiParamByte ++
                        ((r.dropWhile isCsiParamByte).takeWhile isCsiInterByte ++ [f])), r3)
        else none
    else none

/-- Alternative `\][^\x07]*\x07`: OSC.  `[^\x07]*` is greedy and cannot
contain the terminator, so the match runs to the first bell byte; the head of
`dropWhile` (when nonempty) is that bell. -/
def matchOsc (l : List Char) : Option (List Char × List Char) :=
  match l with
  | [] => none
  | c :: r =>
    if c = ']' then
      match r.dropWhile (fun d => d != '\x07') with
      | [] => none
      | b :: r2 => some (']' :: (r.takeWhile (fun d => d != '\x07') ++ [b]), r2)
    else none

/-- Alternative `[PX^_][^\x1b\x07]*\x07`: other string sequences.  The body
runs to the first ESC or bell byte; the match succeeds only when that
stopping byte is a bell. -/
def matchStrCmd (l : List Char) : Option (List Char × List Char) :=
  match l with
  | [] => none
  | c :: r =>
    if isStrCmdByte c then
      match r.dropWhile (fun d => d != '\x1b' && d != '\x07') with
      | [] => none
      | b :: r2 =>
        if b = '\x07' then
          some (c :: (r.takeWhile (fun d => d != '\x1b' && d != '\x07') ++ [b]), r2)
        else none
    else none

/-- Alternative `[@-Z\\-_]`: single character escape. -/
def matchSingleEsc (l : List Char) : Option (List Char × List Char) :=
  match l with
  | [] => none
  | c :: r => if isSingleEscByte c then some ([c], r) else none

/-- One attempt of the scanner regex at the current position: an ESC byte
followed by one of the four alternatives, tried in the regex's alternation
order.  Returns the matched characters and the remaining suffix. -/
def matchAnsiAt (l : List Char) : Option (List Char × List Char) :=
  match l with
  | [] => none
  | c :: r =>
    if c = '\x1b' then
      match matchCsi r with
      | some (m, rest) => some ('\x1b' :: m, rest)
      | none =>
        match matchOsc r with
        | some (m, rest) => some ('\x1b' :: m, rest)
        | none =>
          match matchStrCmd r with
          | some (m, rest) => some ('\x1b' :: m, rest)
          | none =>
            match matchSingleEsc r with
            | some (m, rest) => some ('\x1b' :: m, rest)
            | none => none
    else none

/-- `re.finditer` over the scanner pattern: scan left to right; at each
position try the pattern; on a match emit the span and resume right after it
(matches are non-overlapping), otherwise advance one character.  The fuel
argument (instantiated with the input length, an upper bound on the number of
steps since every step consumes at least one character) keeps the recursion
structural. -/
def scanAux : Nat → List Char → Nat → List SeqMatch
  | 0, _, _ => []
  | _ + 1, [], _ => []
  | fuel + 1, c :: cs, pos =>
    match matchAnsiAt (c :: cs) with
    | some (m, rest) =>
      { sequence := m, start := pos, stop := pos + m.length,
        description := describe_sequence m } :: scanAux fuel rest (pos + m.length)
    | none => scanAux fuel cs (pos + 1)

/-- `RawANSICapture.find_ansi_sequences`. -/
def find_ansi_sequences (text : String) : List SeqMatch :=
  scanAux text.data.length text.data 0

/-- The replacement character U+FFFD substituted by `errors='replace'`. -/
def replacementChar : Char := Char.ofNat 0xFFFD

/-- Is `b` a UTF-8 continuation byte (0x80-0xBF)? -/
def isContByte (b : Nat) : Bool := 0x80 ≤ b && b ≤ 0xBF

/-- CPython's `bytes.decode('utf-8', errors='replace')`: standard UTF-8
decoding where every maximal subpart of an ill-formed subsequence (including
a truncated sequence at end of data) is replaced by a single U+FFFD and
decoding resynchronises at the offending byte.  Overlong forms, surrogates
and values above 0x10FFFF are ill-formed (lead-byte-specific range of the
first continuation byte). -/
def utf8ReplaceDecode : List Nat → List Char
  | [] => []
  | b :: bs =>
    if b < 0x80 then Char.ofNat b :: utf8ReplaceDecode bs
    else if 0xC2 ≤ b && b ≤ 0xDF then
      match bs with
      | [] => [replacementChar]
      | b1 :: bs1 =>
        if isContByte b1 then
          Char.ofNat ((b - 0xC0) * 0x40 + (b1 - 0x80)) :: utf8ReplaceDecode bs1
        else replacementChar :: utf8ReplaceDecode (b1 :: bs1)
    else if 0xE0 ≤ b && b ≤ 0xEF then
      match bs with
      | [] => [replacementChar]
      | b1 :: bs1 =>
        if (if b = 0xE0 then 0xA0 ≤ b1 && b1 ≤ 0xBF
            else if b = 0xED then 0x80 ≤ b1 && b1 ≤ 0x9F
            else isContByte b1) then
          match bs1 with
          | [] => [replacementChar]
          | b2 :: bs2 =>
            if isContByte b2 then
              Char.ofNat ((b - 0xE0) * 0x1000 + (b1 - 0x80) * 0x40 + (b2 - 0x80)) ::
                utf8ReplaceDecode bs2
            else replacementChar :: utf8ReplaceDecode (b2 :: bs2)
        else replacementChar :: utf8ReplaceDecode (b1 :: bs1)
    else if 0xF0 ≤ b && b ≤ 0xF4 then
      match bs with
      | [] => [replacementChar]
      | b1 :: bs1 =>
        if (if b = 0xF0 then 0x90 ≤ b1 && b1 ≤ 0xBF
            else if b = 0xF4 then 0x80 ≤ b1 && b1 ≤ 0x8F
            else isContByte b1) then
          match bs1 with
          | [] => [replacementChar]
          | b2 :: bs2 =>
            if isContByte b2 then
              match bs2 with
              | [] => [replacementChar]
              | b3 :: bs3 =>
                if isContByte b3 then
                  Char.ofNat ((b - 0xF0) * 0x40000 + (b1 - 0x80) * 0x1000 +
                              (b2 - 0x80) * 0x40 + (b3 - 0x80)) :: utf8ReplaceDecode bs3
                else replacementChar :: utf8ReplaceDecode (b3 :: bs3)
            else replacementChar :: utf8ReplaceDecode (b2 :: bs2)
        else replacementChar :: utf8ReplaceDecode (b1 :: bs1)
    else replacementChar :: utf8ReplaceDecode bs

/-- `bytes.decode('latin1')`: each byte is exactly one character with the
same code point.  This is the encoding of the dead `except` branch of the
decode step, modelled for comparison. -/
def latin1Decode (bs : List Nat) : List Char := bs.map Char.ofNat

/-- The decode step of `capture_command_output`:
`output.decode('utf-8', errors='replace')` inside a `try`, with
`output.decode('latin1', errors='replace')` in the `except` branch.  Since
`errors='replace'` substitutes U+FFFD instead of raising, the `try` body
never raises and the `except` branch is unreachable, so the step equals the
UTF-8 replace decoding. -/
def decode_output (output : List Nat) : List Char := utf8ReplaceDecode output

/-- A read of one keyboard character in `run_interactive`:
`sys.stdin.read(1)` returned a character, or raised
`EOFError`/`KeyboardInterrupt` (caught, breaking the loop). -/
inductive StdinRead where
  | char (c : Char)
  | readErr
  deriving DecidableEq

/-- A read of child output in `run_interactive` / `capture_command_output`:
`os.read(master, 1024)` returned a (possibly empty) chunk, or raised
`OSError` (caught, breaking the loop). -/
inductive MasterRead where
  | data (chunk : List Char)
  | readErr
  deriving DecidableEq

/-- One iteration of the `run_interactive` session loop, as observed from
the outside world: the child was already finished at the top of the loop
(`process.poll() is not None`); or `select` reported readiness of the
keyboard and/or the pty master (with the outcome of the corresponding
reads); or the loop body raised an exception not caught inside the loop. -/
inductive InterEvent where
  | procExit
  | iter (stdin : Option StdinRead) (master : Option MasterRead)
  | exn
  deriving DecidableEq

/-- How the `run_interactive` session loop ended. -/
inductive LoopExit where
  | procDone
  | interrupted
  | stdinEnd
  | outputEnd
  | raised
  | scriptEnd
  deriving DecidableEq

/-- Observable state accumulated by the `run_interactive` session loop:
the bytes written to the child (`os.write(master, char.encode())`) and the
captured output chunks (`session_output`). -/
structure LoopState where
  forwarded : List Char
  captured : List (List Char)
  deriving DecidableEq

/-- The `while True` session loop of `run_interactive` over a finite script
of iterations.  Each iteration: break if the process finished; if the
keyboard is ready, read one character, break on `'\x03'` (Ctrl+C, not
forwarded) or on a read exception, otherwise forward it verbatim to the
child; then, if the master is ready, read a chunk, break on empty chunk or
`OSError`, otherwise append it to the captured session output.  An exhausted
script ends the loop (`scriptEnd`), standing for the unobserved remainder. -/
def interactiveLoop : List InterEvent → LoopState → LoopState × LoopExit
  | [], st => (st, .scriptEnd)
  | .procExit :: _, st => (st, .procDone)
  | .exn :: _, st => (st, .raised)
  | .iter si mi :: rest, st =>
    match si with
    | some (.char c) =>
      if c = '\x03' then (st, .interrupted)
      else
        let st1 : LoopState := { st with forwarded := st.forwarded ++ [c] }
        match mi with
        | some (.data []) => (st1, .outputEnd)
        | some (.data d) => interactiveLoop rest { st1 with captured := st1.captured ++ [d] }
        | some .readErr => (st1, .outputEnd)
        | none => interactiveLoop rest st1
    | some .readErr => (st, .stdinEnd)
    | none =>
      match mi with
      | some (.data []) => (st, .outputEnd)
      | some (.data d) => interactiveLoop rest { st with captured := st.captured ++ [d] }
      | some .readErr => (st, .outputEnd)
      | none => interactiveLoop rest st

/-- `RawANSICapture.run_interactive`, with the terminal input discipline made
explicit.  `t0` is the pre-session `termios` attribute value of stdin and
`traw` the attribute value installed by `tty.setraw`; `isatty` is
`sys.stdin.isatty()` and `attrOk` whether the guarded
`tcgetattr`/`setraw` calls succeed (their `except` sets nothing).  Raw mode
is enabled only when both hold; the inner `finally` runs
`termios.tcsetattr(stdin, TCSADRAIN, old_settings)` on every exit of the
loop, including the exceptional one, when raw mode was enabled and the old
settings were saved.  That restore call itself sits in a
`try`/`except: pass`: `restoreOk` is whether it succeeds — when it raises,
the failure is swallowed and the raw discipline stays installed.  Returns
the loop result and the terminal attribute value after `run_interactive`
returns. -/
def run_interactive (isatty attrOk restoreOk : Bool) (t0 traw : Nat)
    (script : List InterEvent) : (LoopState × LoopExit) × Nat :=
  let oldSettings : Option Nat := if isatty && attrOk then some t0 else none
  let rawModeEnabled : Bool := isatty && attrOk
  let termDuring : Nat := if rawModeEnabled then traw else t0
  let result := interactiveLoop script { forwarded := [], captured := [] }
  let termFinal : Nat :=
    if rawModeEnabled && oldSettings.isSome then
      if restoreOk then
        match oldSettings with
        | some t => t
        | none => termDuring
      else termDuring
    else termDuring
  (result, termFinal)

/-- One iteration of the drain loop of `capture_command_output`: the child
was finished at the top (`process.poll() is not None`, with its exit code);
the timeout elapsed; `select` reported the master ready and `os.read`
returned a chunk, an empty result, or raised `OSError`; or nothing was
ready within the poll interval. -/
inductive DrainEvent where
  | procExit (code : Int)
  | timedOut
  | data (chunk : List Nat)
  | eof
  | readErr
  | idle
  deriving DecidableEq

/-- The drain loop of `capture_command_output`: accumulate chunks until the
child exits (capturing its exit code), the timeout fires, a read returns no
data, or a read raises `OSError`.  Returns the captured bytes and the exit
code observed by `process.poll()`, if any. -/
def drainLoop : List DrainEvent → List Nat → List Nat × Option Int
  | [], acc => (acc, none)
  | .procExit code :: _, acc => (acc, some code)
  | .timedOut :: _, acc => (acc, none)
  | .data chunk :: rest, acc => drainLoop rest (acc ++ chunk)
  | .eof :: _, acc => (acc, none)
  | .readErr :: _, acc => (acc, none)
  | .idle :: rest, acc => drainLoop rest acc

/-- Open/closed state of the two pseudo-terminal descriptors allocated by
`pty.openpty()` inside `capture_command_output`. -/
structure PtyFds where
  masterOpen : Bool
  slaveOpen : Bool
  deriving DecidableEq

/-- `RawANSICapture.capture_command_output` with the descriptor lifecycle
made explicit.  `pty.openpty()` opens both descriptors; `spawnOk` is whether
`subprocess.Popen` succeeds.  On success the slave is closed right after the
spawn, the drain loop runs (cleanup signalling failures are swallowed), the
master is closed, and the decoded output is returned with the exit code (or
-1 when the child never reported one).  When the spawn raises, the outer
`except Exception` handler returns the error tuple directly: no descriptor
is closed on that path.  Returns the Python return value together with the
final descriptor state. -/
def capture_command_output (spawnOk : Bool) (events : List DrainEvent) :
    (Except String (List Char × Int)) × PtyFds :=
  let fds0 : PtyFds := { masterOpen := true, slaveOpen := true }
  if spawnOk then
    let fds1 : PtyFds := { fds0 with slaveOpen := false }
    let res := drainLoop events []
    let fds2 : PtyFds := { fds1 with masterOpen := false }
    let rc : Int := match res.2 with | some code => code | none => -1
    (.ok (decode_output res.1, rc), fds2)
  else
    (.error "Error executing command", fds0)

/-- `re.sub(r'\s+', '_', s)`: every maximal run of characters of the
whitespace class `isS` (Python's Unicode-aware `\s`, kept as a parameter)
becomes a single underscore.  The flag tracks being inside a run already
replaced. -/
def collapseSpacesAux (isS : Char → Bool) : Bool → List Char → List Char
  | _, [] => []
  | inRun, c :: cs =>
    if isS c then
      if inRun then collapseSpacesAux isS true cs else '_' :: collapseSpacesAux isS true cs
    else c :: collapseSpacesAux isS false cs

/-- The sanitisation pipeline shared by `generate_log_filename` and
`_write_interactive_log`: `re.sub(r'[^\w\s-]', '', command)`, then
`re.sub(r'\s+', '_', ...)`, then truncation to 50 characters, then the
fallback name when the result is empty.  Python's `\w` and `\s` on `str`
are Unicode-aware character classes; they enter the embedding as the
parameters `isW` and `isS`, so every theorem about the sanitiser quantifies
over the real classes instead of fixing an approximation of them. -/
def sanitizeCommand (isW isS : Char → Bool) (command : List Char) (fallback : List Char) :
    List Char :=
  if (collapseSpacesAux isS false
        (command.filter (fun c => isW c || isS c || c = '-'))).take 50 = []
  then fallback
  else (collapseSpacesAux isS false
        (command.filter (fun c => isW c || isS c || c = '-'))).take 50

/-- `RawANSICapture.generate_log_filename`; the timestamp
(`str(int(time.time()))`) is passed as a parameter, the regex classes `\w`
and `\s` as the predicates `isW` and `isS`. -/
def generate_log_filename (isW isS : Char → Bool) (timestamp : Nat) (command : List Char) :
    String :=
  toString timestamp ++ "_" ++
    (⟨sanitizeCommand isW isS command "command".data⟩ : String) ++ ".log"

/-- The filename built by `RawANSICapture._write_interactive_log` (same
sanitisation, fallback name `interactive`, timestamp
`str(int(session_start_time))`). -/
def interactive_log_filename (isW isS : Char → Bool) (timestamp : Nat) (command : List Char) :
    String :=
  toString timestamp ++ "_" ++
    (⟨sanitizeCommand isW isS command "interactive".data⟩ : String) ++ ".log"

/-- The restriction of Python's `\w` to ASCII: letters, digits, underscore.
On ASCII characters this agrees with the Unicode-aware class, so it is a
valid instantiation of `isW` for witnesses on ASCII commands. -/
def asciiWordChar (c : Char) : Bool := c.isAlphanum || c = '_'

/-- The restriction of Python's `\s` to ASCII: space, tab, newline, vertical
tab, form feed, carriage return.  On ASCII characters this agrees with the
Unicode-aware class, so it is a valid instantiation of `isS` for witnesses
on ASCII commands. -/
def asciiSpace (c : Char) : Bool :=
  c = ' ' || c = '\t' || c = '\n' || c = '\x0b' || c = '\x0c' || c = '\r'

/-- The keyboard character of one loop iteration, if it had one (used to
state what `run_interactive` forwards). -/
def stdinCharOf : InterEvent → Option Char
  | .iter (some (.char c)) _ => some c
  | _ => none

/-- Reconstruction of the input from scanner output: the text between spans
(taken from the input) interleaved with the matches' own text. -/
def interleave (s : List Char) : Nat → List SeqMatch → List Char
  | pos, [] => s.drop pos
  | pos, msq :: ms =>
    (s.drop pos).take (msq.start - pos) ++ (msq.sequence ++ interleave s msq.stop ms)

theorem data_append (a b : String) : (a ++ b).data = a.data ++ b.data := by
  cases a; cases b; rfl

theorem ne_of_firstChar {a b : String} (h : a.data.head? ≠ b.data.head?) : a ≠ b :=
  fun e => h (by rw [e])

theorem firstChar_append (a b : String) (c : Char) (l : List Char) (h : a.data = c :: l) :
    (a ++ b).data.head? = some c := by
  rw [data_append, h]; rfl

theorem csiDescription_head (command : Char) (params : List Char) :
    (csiDescription command params).data.head? = some 'C' ∨
    (csiDescription command params).data.head? = some 'E' ∨
    (csiDescription command params).data.head? = some 'S' ∨
    (csiDescription command params).data.head? = some 'R' := by
  unfold csiDescription
  split <;>
    first
      | exact Or.inl (firstChar_append _ _ _ _ rfl)
      | exact Or.inr (Or.inl (firstChar_append _ _ _ _ rfl))
      | exact Or.inr (Or.inr (Or.inl rfl))
      | exact Or.inr (Or.inr (Or.inr rfl))
      | exact Or.inr (Or.inr (Or.inl (firstChar_append _ _ _ _ rfl)))
      | exact Or.inr (Or.inr (Or.inr (firstChar_append _ _ _ _ rfl)))
      | (split_ifs <;>
          first
            | exact Or.inr (Or.inr (Or.inr rfl))
            | exact Or.inr (Or.inr (Or.inl (firstChar_append _ _ _ _ rfl))))

theorem csiDescription_ne_strings (command : Char) (params : List Char) :
    csiDescription command params ≠ "Not an ANSI sequence" ∧
    csiDescription command params ≠ "Incomplete CSI sequence" ∧
    csiDescription command params ≠ "" := by
  rcases csiDescription_head command params with h | h | h | h <;>
    exact ⟨ne_of_firstChar (by rw [h]; decide),
           ne_of_firstChar (by rw [h]; decide),
           ne_of_firstChar (by rw [h]; decide)⟩

theorem describe_nil : describe_sequence [] = "Not an ANSI sequence" := rfl

theorem describe_not_esc (c : Char) (t : List Char) (h : c ≠ '\x1b') :
    describe_sequence (c :: t) = "Not an ANSI sequence" := by
  unfold describe_sequence; simp [h]

theorem describe_csi (t : List Char) (h : t ≠ []) :
    describe_sequence ('\x1b' :: '[' :: t) = csiDescription (t.getLast h) t.dropLast := by
  cases t with
  | nil => exact absurd rfl h
  | cons c cs => rfl

theorem describe_osc (t : List Char) :
    describe_sequence ('\x1b' :: ']' :: t) =
      "OSC (Operating System Command): " ++
        (⟨if ('\x1b' :: ']' :: t).getLast? = some '\x07'
          then (('\x1b' :: ']' :: t).drop 2).dropLast
          else ('\x1b' :: ']' :: t).drop 2⟩ : String) := rfl

theorem describe_other (c : Char) (t : List Char) (h1 : c ≠ '[') (h2 : c ≠ ']') :
    describe_sequence ('\x1b' :: c :: t) = "Other ANSI sequence: " ++ (⟨c :: t⟩ : String) := by
  unfold describe_sequence; simp [h1, h2]

theorem matchCsi_eq {l m r : List Char} (h : matchCsi l = some (m, r)) :
    l = m ++ r ∧ ∃ ps ins f, m = '[' :: (ps ++ (ins ++ [f])) := by
  cases l with
  | nil => simp [matchCsi] at h
  | cons c cl =>
    by_cases hc : c = '['
    · subst hc
      simp only [matchCsi, if_pos] at h
      split at h
      next x heq => simp at h
      next x f r3 heq =>
        split at h
        next hf =>
          simp only [Option.some.injEq, Prod.mk.injEq] at h
          obtain ⟨hm, hr⟩ := h
          subst hm; subst hr
          constructor
          · have e2 := List.takeWhile_append_dropWhile isCsiInterByte (cl.dropWhile isCsiParamByte)
            rw [heq] at e2
            have e1 := List.takeWhile_append_dropWhile isCsiParamByte cl
            simp only [List.cons_append, List.append_assoc, List.singleton_append,
              List.nil_append]
            rw [e2, e1]
          · exact ⟨_, _, f, rfl⟩
        next hf => simp at h
    · simp [matchCsi, hc] at h

theorem matchOsc_eq {l m r : List Char} (h : matchOsc l = some (m, r)) :
    l = m ++ r ∧ ∃ body b, m = ']' :: (body ++ [b]) := by
  cases l with
  | nil => simp [matchOsc] at h
  | cons c cl =>
    by_cases hc : c = ']'
    · subst hc
      simp only [matchOsc, if_pos] at h
      split at h
      next x heq => simp at h
      next x b r2 heq =>
        simp only [Option.some.injEq, Prod.mk.injEq] at h
        obtain ⟨hm, hr⟩ := h
        subst hm; subst hr
        constructor
        · have e1 := List.takeWhile_append_dropWhile (fun d => d != '\x07') cl
          rw [heq] at e1
          simp only [List.cons_append, List.append_assoc, List.singleton_append,
            List.nil_append]
          rw [e1]
        · exact ⟨_, b, rfl⟩
    · simp [matchOsc, hc] at h

theorem matchStrCmd_eq {l m r : List Char} (h : matchStrCmd l = some (m, r)) :
    l = m ++ r ∧ ∃ c body b, m = c :: (body ++ [b]) ∧ isStrCmdByte c = true := by
  cases l with
  | nil => simp [matchStrCmd] at h
  | cons c cl =>
    by_cases hc : isStrCmdByte c
    · simp only [matchStrCmd, if_pos hc] at h
      split at h
      next x heq => simp at h
      next x b r2 heq =>
        split at h
        next hb =>
          simp only [Option.some.injEq, Prod.mk.injEq] at h
          obtain ⟨hm, hr⟩ := h
          subst hm; subst hr
          constructor
          · have e1 := List.takeWhile_append_dropWhile (fun d => d != '\x1b' && d != '\x07') cl
            rw [heq] at e1
            simp only [List.cons_append, List.append_assoc, List.singleton_append,
              List.nil_append]
            rw [e1]
          · exact ⟨c, _, b, rfl, hc⟩
        next hb => simp at h
    · simp [matchStrCmd, hc] at h

theorem matchSingleEsc_eq {l m r : List Char} (h : matchSingleEsc l = some (m, r)) :
    l = m ++ r ∧ ∃ c, m = [c] ∧ isSingleEscByte c = true := by
  cases l with
  | nil => simp [matchSingleEsc] at h
  | cons c cl =>
    by_cases hc : isSingleEscByte c
    · simp only [matchSingleEsc, if_pos hc, Option.some.injEq, Prod.mk.injEq] at h
      obtain ⟨hm, hr⟩ := h
      subst hm; subst hr
      exact ⟨rfl, c, rfl, hc⟩
    · simp [matchSingleEsc, hc] at h

theorem matchAnsiAt_eq {l m r : List Char} (h : matchAnsiAt l = some (m, r)) :
    l = m ++ r ∧ ∃ c t, m = '\x1b' :: c :: t ∧ (c = '[' → t ≠ []) := by
  cases l with
  | nil => simp [matchAnsiAt] at h
  | cons c0 cl =>
    by_cases hc : c0 = '\x1b'
    · subst hc
      simp only [matchAnsiAt, if_pos] at h
      split at h
      next x m1 rest heq =>
        simp only [Option.some.injEq, Prod.mk.injEq] at h
        obtain ⟨hm, hr⟩ := h
        subst hm; subst hr
        obtain ⟨hl, ps, ins, f, hm1⟩ := matchCsi_eq heq
        subst hm1
        exact ⟨by rw [hl]; rfl, '[', _, rfl, fun _ => by simp⟩
      next x heq0 =>
        split at h
        next x2 m1 rest heq =>
          simp only [Option.some.injEq, Prod.mk.injEq] at h
          obtain ⟨hm, hr⟩ := h
          subst hm; subst hr
          obtain ⟨hl, body, b, hm1⟩ := matchOsc_eq heq
          subst hm1
          exact ⟨by rw [hl]; rfl, ']', _, rfl, fun hcc => absurd hcc (by decide)⟩
        next x2 heq1 =>
          split at h
          next x3 m1 rest heq =>
            simp only [Option.some.injEq, Prod.mk.injEq] at h
            obtain ⟨hm, hr⟩ := h
            subst hm; subst hr
            obtain ⟨hl, c, body, b, hm1, hcs⟩ := matchStrCmd_eq heq
            subst hm1
            exact ⟨by rw [hl]; rfl, c, _, rfl, fun _ => by simp⟩
          next x3 heq2 =>
            split at h
            next x4 m1 rest heq =>
              simp only [Option.some.injEq, Prod.mk.injEq] at h
              obtain ⟨hm, hr⟩ := h
              subst hm; subst hr
              obtain ⟨hl, c, hm1, hcs⟩ := matchSingleEsc_eq heq
              subst hm1
              exact ⟨by rw [hl]; rfl, c, [], rfl,
                fun hcc => absurd (hcc ▸ hcs) (by decide)⟩
            next x4 heq3 => simp at h
    · simp [matchAnsiAt, hc] at h

theorem matchAnsiAt_shape {l m r : List Char} (h : matchAnsiAt l = some (m, r)) :
    2 ≤ m.length ∧ r.length + 2 ≤ l.length := by
  obtain ⟨hl, c, t, hm, _⟩ := matchAnsiAt_eq h
  subst hm
  constructor
  · simp
  · rw [hl]; simp

theorem drop_succ_of_drop_cons {s cs : List Char} {c : Char} {pos : Nat}
    (hd : s.drop pos = c :: cs) : s.drop (pos + 1) = cs := by
  have h := List.drop_drop 1 pos s
  rw [← h, hd]
  rfl

theorem drop_add_of_drop_append {s rest m : List Char} {pos : Nat}
    (hd : s.drop pos = m ++ rest) : s.drop (pos + m.length) = rest := by
  have h := List.drop_drop m.length pos s
  rw [← h, hd, List.drop_left]

theorem scanAux_start_ge (fuel : Nat) :
    ∀ (l : List Char) (pos : Nat), ∀ msq ∈ scanAux fuel l pos, pos ≤ msq.start := by
  induction fuel with
  | zero => intro l pos msq hm; simp [scanAux] at hm
  | succ n ih =>
    intro l pos msq hm
    cases l with
    | nil => simp [scanAux] at hm
    | cons c cs =>
      simp only [scanAux] at hm
      split at hm
      next m rest heq =>
        rcases List.mem_cons.mp hm with h1 | h1
        · subst h1; exact Nat.le_refl pos
        · exact Nat.le_trans (Nat.le_add_right pos m.length) (ih _ _ _ h1)
      next heq => exact Nat.le_trans (Nat.le_succ pos) (ih _ _ _ hm)

theorem scanAux_inv (s : List Char) (fuel : Nat) :
    ∀ (l : List Char) (pos : Nat), s.drop pos = l →
      ∀ msq ∈ scanAux fuel l pos,
        msq.stop = msq.start + msq.sequence.length ∧
        2 ≤ msq.sequence.length ∧
        (∃ c t, msq.sequence = '\x1b' :: c :: t ∧ (c = '[' → t ≠ [])) ∧
        msq.sequence = (s.drop msq.start).take msq.sequence.length ∧
        msq.description = describe_sequence msq.sequence := by
  induction fuel with
  | zero => intro l pos hd msq hm; simp [scanAux] at hm
  | succ n ih =>
    intro l pos hd msq hm
    cases l with
    | nil => simp [scanAux] at hm
    | cons c cs =>
      simp only [scanAux] at hm
      split at hm
      next m rest heq =>
        obtain ⟨hl, c1, t1, hm1, himp⟩ := matchAnsiAt_eq heq
        rcases List.mem_cons.mp hm with h1 | h1
        · subst h1
          refine ⟨rfl, ?_, ⟨c1, t1, hm1, himp⟩, ?_, rfl⟩
          · rw [hm1]; simp
          · show m = (s.drop pos).take m.length
            rw [hd, hl]
            exact (List.take_left m rest).symm
        · exact ih rest (pos + m.length) (drop_add_of_drop_append (by rw [hd, hl])) msq h1
      next heq =>
        exact ih cs (pos + 1) (drop_succ_of_drop_cons hd) msq hm

theorem scanAux_pairwise (fuel : Nat) :
    ∀ (l : List Char) (pos : Nat),
      List.Pairwise (fun a b => a.stop ≤ b.start) (scanAux fuel l pos) := by
  induction fuel with
  | zero => intro l pos; simp [scanAux]
  | succ n ih =>
    intro l pos
    cases l with
    | nil => simp [scanAux]
    | cons c cs =>
      simp only [scanAux]
      split
      next m rest heq =>
        refine List.Pairwise.cons ?_ (ih _ _)
        intro b hb
        exact scanAux_start_ge n rest (pos + m.length) b hb
      next heq => exact ih _ _

theorem interleave_shift (s : List Char) (pos : Nat) (c : Char) (ms : List SeqMatch)
    (hd : s.drop pos = c :: s.drop (pos + 1))
    (hge : ∀ msq ∈ ms, pos + 1 ≤ msq.start) :
    interleave s pos ms = c :: interleave s (pos + 1) ms := by
  cases ms with
  | nil => simp only [interleave]; rw [hd]
  | cons m ms2 =>
    have h1 : pos + 1 ≤ m.start := hge m (List.mem_cons_self m ms2)
    have h2 : m.start - pos = (m.start - (pos + 1)) + 1 := by omega
    simp only [interleave]
    rw [h2, hd, List.take_succ_cons]
    simp [List.cons_append]

theorem scanAux_interleave (s : List Char) (fuel : Nat) :
    ∀ (l : List Char) (pos : Nat), s.drop pos = l →
      interleave s pos (scanAux fuel l pos) = l := by
  induction fuel with
  | zero => intro l pos hd; simpa [scanAux, interleave] using hd
  | succ n ih =>
    intro l pos hd
    cases l with
    | nil => simpa [scanAux, interleave] using hd
    | cons c cs =>
      simp only [scanAux]
      split
      next m rest heq =>
        have hl := (matchAnsiAt_eq heq).1
        have hd2 : s.drop (pos + m.length) = rest :=
          drop_add_of_drop_append (by rw [hd, hl])
        simp only [interleave]
        rw [Nat.sub_self, List.take_zero, List.nil_append,
          ih rest (pos + m.length) hd2, ← hl, ← hd]
      next heq =>
        have hd2 : s.drop (pos + 1) = cs := drop_succ_of_drop_cons hd
        rw [interleave_shift s pos c _ (by rw [hd, hd2])
          (fun msq hm => scanAux_start_ge n cs (pos + 1) msq hm)]
        rw [ih cs (pos + 1) hd2]

theorem describe_scanned_ne (c : Char) (t : List Char) (himp : c = '[' → t ≠ []) :
    describe_sequence ('\x1b' :: c :: t) ≠ "Not an ANSI sequence" ∧
    describe_sequence ('\x1b' :: c :: t) ≠ "Incomplete CSI sequence" := by
  by_cases hc1 : c = '['
  · subst hc1
    rw [describe_csi t (himp rfl)]
    exact ⟨(csiDescription_ne_strings _ _).1, (csiDescription_ne_strings _ _).2.1⟩
  · by_cases hc2 : c = ']'
    · subst hc2
      rw [describe_osc]
      exact ⟨ne_of_firstChar (by rw [firstChar_append _ _ 'O' _ rfl]; decide),
             ne_of_firstChar (by rw [firstChar_append _ _ 'O' _ rfl]; decide)⟩
    · rw [describe_other c t hc1 hc2]
      exact ⟨ne_of_firstChar (by rw [firstChar_append _ _ 'O' _ rfl]; decide),
             ne_of_firstChar (by rw [firstChar_append _ _ 'O' _ rfl]; decide)⟩

/-- C1: for every input string, the matches returned by `find_ansi_sequences`
have pairwise non-overlapping spans ordered by start offset, each match's raw
text equals the input slice from `start` (inclusive) to `stop` (exclusive),
and concatenating the text between and within the spans reconstructs the
input exactly. -/
theorem claim_C1 (text : String) :
    List.Pairwise (fun a b => a.stop ≤ b.start) (find_ansi_sequences text) ∧
    (∀ msq ∈ find_ansi_sequences text,
      msq.start < msq.stop ∧
      msq.sequence = (text.data.drop msq.start).take (msq.stop - msq.start)) ∧
    interleave text.data 0 (find_ansi_sequences text) = text.data := by
  refine ⟨scanAux_pairwise _ _ _, ?_, scanAux_interleave _ _ _ _ rfl⟩
  intro msq hm
  obtain ⟨hstop, hlen, _, hslice, _⟩ :=
    scanAux_inv text.data text.data.length text.data 0 rfl msq hm
  have hsub : msq.stop - msq.start = msq.sequence.length := by omega
  exact ⟨by omega, by rw [hsub]; exact hslice⟩

theorem claim_C1_witness :
    ({ sequence := "\x1b[31m".data, start := 1, stop := 6,
       description := "Set Graphics Mode 31" } : SeqMatch).start <
      ({ sequence := "\x1b[31m".data, start := 1, stop := 6,
         description := "Set Graphics Mode 31" } : SeqMatch).stop ∧
    ({ sequence := "\x1b[31m".data, start := 1, stop := 6,
       description := "Set Graphics Mode 31" } : SeqMatch).sequence =
      ("a\x1b[31m".data.drop 1).take (6 - 1) :=
  (claim_C1 "a\x1b[31m").2.1 _ (by decide)

/-- C2 counterexample: on the input `"\x1b[31mRed\x1b[0m"` the scanner does
find two matches described in order, but the second description is
`"Set Graphics Mode 0"` (the `params` string `"0"` is non-empty, so the
`'m'` entry takes its truthy branch), not `"Reset Graphics Mode"` as the
claim states. -/
theorem claim_C2_counterexample :
    (find_ansi_sequences "\x1b[31mRed\x1b[0m").map SeqMatch.description =
      ["Set Graphics Mode 31", "Set Graphics Mode 0"] ∧
    ("Set Graphics Mode 0" : String) ≠ "Reset Graphics Mode" := by decide

/-- C2 (amended): on the input `"\x1b[31mRed\x1b[0m"` the scanner finds
exactly two matches, `"\x1b[31m"` with span [0,5) described as
`"Set Graphics Mode 31"` and `"\x1b[0m"` with span [8,12) described as
`"Set Graphics Mode 0"` (the description `"Reset Graphics Mode"` is produced
only when the parameter string is empty, as in `"\x1b[m"`). -/
theorem claim_C2_amended :
    find_ansi_sequences "\x1b[31mRed\x1b[0m" =
      [{ sequence := "\x1b[31m".data, start := 0, stop := 5,
         description := "Set Graphics Mode 31" },
       { sequence := "\x1b[0m".data, start := 8, stop := 12,
         description := "Set Graphics Mode 0" }] ∧
    describe_sequence "\x1b[m".data = "Reset Graphics Mode" := by decide

/-- C3 counterexample: on the input `"\x1b[31"` (escape introducer, `[`,
parameter bytes, no final byte) the scanner produces no match at all —
there is no `Malformed` match covering the remaining bytes. -/
theorem claim_C3_counterexample :
    find_ansi_sequences "\x1b[31" = [] ∧
    (find_ansi_sequences "\x1b[31").length ≠ 1 := by decide

theorem scanAux_no_esc (fuel : Nat) :
    ∀ (l : List Char) (pos : Nat), (∀ c ∈ l, c ≠ '\x1b') → scanAux fuel l pos = [] := by
  induction fuel with
  | zero => intro l pos h; simp [scanAux]
  | succ n ih =>
    intro l pos h
    cases l with
    | nil => simp [scanAux]
    | cons c cs =>
      have hc : c ≠ '\x1b' := h c (List.mem_cons_self c cs)
      simp only [scanAux]
      have hnone : matchAnsiAt (c :: cs) = none := by simp [matchAnsiAt, hc]
      rw [hnone]
      exact ih cs (pos + 1) (fun d hd => h d (List.mem_cons_of_mem c hd))

/-- C3 (amended): on every input consisting of the escape introducer, `[`
and parameter bytes with no terminating final byte before the end of the
buffer, the scanner produces no match at all (the unterminated sequence is
left as plain text, there is no `Malformed` record in the code), and
scanning terminates with that empty result. -/
theorem claim_C3_amended (p : List Char) (hp : ∀ c ∈ p, isCsiParamByte c = true) :
    find_ansi_sequences (⟨'\x1b' :: '[' :: p⟩ : String) = [] := by
  have hdrop : p.dropWhile isCsiParamByte = [] := by
    rw [List.dropWhile_eq_nil_iff]; exact hp
  have hnone : matchAnsiAt ('\x1b' :: '[' :: p) = none := by
    have h1 : matchCsi ('[' :: p) = none := by
      simp only [matchCsi, if_pos]
      rw [hdrop]
      rfl
    have h2 : matchOsc ('[' :: p) = none := by simp [matchOsc]
    have h3 : matchStrCmd ('[' :: p) = none := by simp [matchStrCmd, isStrCmdByte]
    have h4 : matchSingleEsc ('[' :: p) = none := by simp [matchSingleEsc, isSingleEscByte]
    simp only [matchAnsiAt, if_pos]
    rw [h1, h2, h3, h4]
  have hall : ∀ c ∈ '[' :: p, c ≠ '\x1b' := by
    intro c hc
    rcases List.mem_cons.mp hc with h | h
    · subst h; decide
    · intro he
      have hcp := hp c h
      rw [he] at hcp
      exact absurd hcp (by decide)
  show scanAux (p.length + 1 + 1) ('\x1b' :: '[' :: p) 0 = []
  simp only [scanAux]
  rw [hnone]
  exact scanAux_no_esc (p.length + 1) ('[' :: p) 1 hall

theorem claim_C3_witness : find_ansi_sequences (⟨'\x1b' :: '[' :: ['5', '5']⟩ : String) = [] :=
  claim_C3_amended ['5', '5'] (by decide)

/-- C4 counterexample: for the CSI sequence `"\x1b[;5H"` the first
(row) parameter is explicitly empty, and the description echoes the empty
row instead of defaulting it to 1 as the claim states. -/
theorem claim_C4_counterexample :
    describe_sequence "\x1b[;5H".data = "Cursor Position row , col 5" ∧
    describe_sequence "\x1b[;5H".data ≠ "Cursor Position row 1, col 5" := by decide

theorem lastOfAppend (p : List Char) (f : Char) (h : p ++ [f] ≠ []) :
    (p ++ [f]).getLast h = f :=
  List.getLast_append_singleton p

theorem splitSemi_ne_nil (p : List Char) : csiDescription.splitSemi p ≠ [] := by
  cases p with
  | nil => simp [csiDescription.splitSemi]
  | cons c cs =>
    simp only [csiDescription.splitSemi]
    split
    · simp
    · split <;> simp

theorem splitSemi_head (p : List Char) :
    (csiDescription.splitSemi p).headD [] = p.takeWhile (fun c => c != ';') := by
  induction p with
  | nil => rfl
  | cons c cs ih =>
    by_cases hc : c = ';'
    · subst hc
      simp [csiDescription.splitSemi]
    · simp only [csiDescription.splitSemi, if_neg hc]
      cases hsp : csiDescription.splitSemi cs with
      | nil => exact absurd hsp (splitSemi_ne_nil cs)
      | cons r rs =>
        rw [hsp] at ih
        show c :: r = (c :: cs).takeWhile (fun c => c != ';')
        rw [List.takeWhile_cons, if_pos (by simp [hc])]
        exact congrArg (List.cons c) ih

theorem splitSemi_second (p : List Char) (hin : ';' ∈ p) :
    (csiDescription.splitSemi p).getD 1 [] =
      ((p.dropWhile (fun c => c != ';')).drop 1).takeWhile (fun c => c != ';') ∧
    1 < (csiDescription.splitSemi p).length := by
  induction p with
  | nil => simp at hin
  | cons c cs ih =>
    by_cases hc : c = ';'
    · subst hc
      cases hsp : csiDescription.splitSemi cs with
      | nil => exact absurd hsp (splitSemi_ne_nil cs)
      | cons r rs =>
        constructor
        · simp only [csiDescription.splitSemi, if_pos]
          rw [hsp]
          show r = (((';' :: cs).dropWhile (fun c => c != ';')).drop 1).takeWhile (fun c => c != ';')
          rw [List.dropWhile_cons, if_neg (by simp)]
          show r = cs.takeWhile (fun c => c != ';')
          have hh := splitSemi_head cs
          rw [hsp] at hh
          exact hh
        · simp [csiDescription.splitSemi, hsp]
    · have hin2 : ';' ∈ cs := by
        rcases List.mem_cons.mp hin with h | h
        · exact absurd h.symm hc
        · exact h
      obtain ⟨ih1, ih2⟩ := ih hin2
      cases hsp : csiDescription.splitSemi cs with
      | nil => exact absurd hsp (splitSemi_ne_nil cs)
      | cons r rs =>
        rw [hsp] at ih1 ih2
        constructor
        · simp only [csiDescription.splitSemi, if_neg hc]
          rw [hsp]
          show rs.getD 0 [] =
            (((c :: cs).dropWhile (fun c => c != ';')).drop 1).takeWhile (fun c => c != ';')
          rw [List.dropWhile_cons, if_pos (by simp [hc])]
          exact ih1
        · simp only [csiDescription.splitSemi, if_neg hc]
          rw [hsp]
          simpa using ih2

theorem csiDescription_HF (f : Char) (hf : f = 'H' ∨ f = 'f') (params : List Char) :
    csiDescription f params =
      "Cursor Position row " ++
        ((if ';' ∈ params then (⟨(csiDescription.splitSemi params).headD []⟩ : String)
          else if params = [] then "1" else ⟨params⟩) ++
         (", col " ++
          (if ';' ∈ params ∧ 1 < (csiDescription.splitSemi params).length
           then (⟨(csiDescription.splitSemi params).getD 1 []⟩ : String) else "1"))) := by
  rcases hf with rfl | rfl <;> rfl

/-- C4 (amended): for every CSI sequence with final byte `H` or `f`, the
description derives the row from the text before the first `;` when a `;`
is present (otherwise the whole parameter string, defaulting to 1 only when
it is empty) and the column from the second `;`-separated field when a `;`
is present (otherwise 1); an explicitly empty field is echoed empty rather
than defaulted: `"\x1b[5;10H"` gives row 5 col 10, `"\x1b[7H"` row 7 col 1,
`"\x1b[H"` row 1 col 1, but `"\x1b[;5H"` has an empty row and `"\x1b[5;H"`
an empty column. -/
theorem claim_C4_amended :
    (∀ (p : List Char) (f : Char), f = 'H' ∨ f = 'f' →
      describe_sequence ('\x1b' :: '[' :: (p ++ [f])) =
        "Cursor Position row " ++
          ((if ';' ∈ p then (⟨p.takeWhile (fun c => c != ';')⟩ : String)
            else if p = [] then "1" else ⟨p⟩) ++
           (", col " ++
            (if ';' ∈ p
             then (⟨((p.dropWhile (fun c => c != ';')).drop 1).takeWhile
                     (fun c => c != ';')⟩ : String)
             else "1")))) ∧
    describe_sequence "\x1b[5;10H".data = "Cursor Position row 5, col 10" ∧
    describe_sequence "\x1b[5;10f".data = "Cursor Position row 5, col 10" ∧
    describe_sequence "\x1b[7H".data = "Cursor Position row 7, col 1" ∧
    describe_sequence "\x1b[H".data = "Cursor Position row 1, col 1" ∧
    describe_sequence "\x1b[f".data = "Cursor Position row 1, col 1" ∧
    describe_sequence "\x1b[;5H".data = "Cursor Position row , col 5" ∧
    describe_sequence "\x1b[5;H".data = "Cursor Position row 5, col " := by
  refine ⟨?_, by decide, by decide, by decide, by decide, by decide, by decide, by decide⟩
  intro p f hf
  rw [describe_csi (p ++ [f]) (by simp), lastOfAppend, List.dropLast_concat,
    csiDescription_HF f hf p]
  by_cases hin : ';' ∈ p
  · obtain ⟨h1, h2⟩ := splitSemi_second p hin
    rw [if_pos hin, if_pos hin, if_pos hin, if_pos (And.intro hin h2),
      splitSemi_head, h1]
  · simp [hin]

theorem claim_C4_witness :
    describe_sequence ('\x1b' :: '[' :: (['7'] ++ ['H'])) =
      "Cursor Position row " ++
        ((if ';' ∈ (['7'] : List Char) then (⟨(['7'] : List Char).takeWhile (fun c => c != ';')⟩ : String)
          else if (['7'] : List Char) = [] then "1" else ⟨['7']⟩) ++
         (", col " ++
          (if ';' ∈ (['7'] : List Char)
           then (⟨(((['7'] : List Char).dropWhile (fun c => c != ';')).drop 1).takeWhile
                   (fun c => c != ';')⟩ : String)
           else "1"))) :=
  claim_C4_amended.1 ['7'] 'H' (Or.inl rfl)

/-- C10: every match produced by the scanner starts with the escape
introducer 0x1B and has length at least 2, and the describer applied to any
scanner-produced match never returns the `"Not an ANSI sequence"` branch nor
the `"Incomplete CSI sequence"` branch: both are unreachable on scanner
output. -/
theorem claim_C10 (text : String) :
    ∀ msq ∈ find_ansi_sequences text,
      (∃ c t, msq.sequence = '\x1b' :: c :: t) ∧
      2 ≤ msq.sequence.length ∧
      describe_sequence msq.sequence ≠ "Not an ANSI sequence" ∧
      describe_sequence msq.sequence ≠ "Incomplete CSI sequence" := by
  intro msq hm
  obtain ⟨hstop, hlen, ⟨c, t, hseq, himp⟩, hslice, hdesc⟩ :=
    scanAux_inv text.data text.data.length text.data 0 rfl msq hm
  refine ⟨⟨c, t, hseq⟩, hlen, ?_, ?_⟩
  · rw [hseq]; exact (describe_scanned_ne c t himp).1
  · rw [hseq]; exact (describe_scanned_ne c t himp).2

theorem claim_C10_witness :
    (∃ c t, ({ sequence := "\x1b[0m".data, start := 8, stop := 12,
               description := "Set Graphics Mode 0" } : SeqMatch).sequence = '\x1b' :: c :: t) ∧
    2 ≤ ("\x1b[0m".data).length ∧
    describe_sequence "\x1b[0m".data ≠ "Not an ANSI sequence" ∧
    describe_sequence "\x1b[0m".data ≠ "Incomplete CSI sequence" :=
  claim_C10 "\x1b[31mRed\x1b[0m" _ (by decide)

/-- C5: the describer `describe_sequence` is total: for every input it
returns a description string (never the empty string, never a failure —
totality of the Lean function mirrors that every Python branch returns),
and for every CSI-shaped input whose final byte is not one of the sixteen
recognized command codes the description echoes the command code and the
raw parameter string. -/
theorem claim_C5 (seq : List Char) :
    describe_sequence seq ≠ "" ∧
    (∀ p f, seq = '\x1b' :: '[' :: (p ++ [f]) →
      f ∉ (['A', 'B', 'C', 'D', 'E', 'F', 'G', 'H', 'f', 'J', 'K', 's', 'u', 'm', 'h', 'l'] :
        List Char) →
      describe_sequence seq =
        "CSI " ++ ((⟨[f]⟩ : String) ++ (" with params \x22" ++ ((⟨p⟩ : String) ++ "\x22")))) := by
  constructor
  · match seq with
    | [] => decide
    | c0 :: rest =>
      by_cases h0 : c0 = '\x1b'
      · subst h0
        match rest with
        | [] => decide
        | c1 :: rest2 =>
          by_cases h1 : c1 = '['
          · subst h1
            match rest2 with
            | [] => decide
            | c2 :: cs2 =>
              rw [describe_csi (c2 :: cs2) (List.cons_ne_nil c2 cs2)]
              exact (csiDescription_ne_strings _ _).2.2
          · by_cases h2 : c1 = ']'
            · subst h2
              rw [describe_osc]
              exact ne_of_firstChar (by rw [firstChar_append _ _ 'O' _ rfl]; decide)
            · rw [describe_other c1 rest2 h1 h2]
              exact ne_of_firstChar (by rw [firstChar_append _ _ 'O' _ rfl]; decide)
      · rw [describe_not_esc c0 rest h0]; decide
  · intro p f hseq hf
    subst hseq
    rw [describe_csi (p ++ [f]) (by simp), lastOfAppend, List.dropLast_concat]
    unfold csiDescription
    split <;> first | rfl | simp_all

theorem claim_C5_witness :
    describe_sequence ('\x1b' :: '[' :: (['3', '1'] ++ ['q'])) ≠ "" ∧
    describe_sequence ('\x1b' :: '[' :: (['3', '1'] ++ ['q'])) =
      "CSI " ++ ((⟨['q']⟩ : String) ++
        (" with params \x22" ++ ((⟨['3', '1']⟩ : String) ++ "\x22"))) :=
  ⟨(claim_C5 _).1, (claim_C5 _).2 ['3', '1'] 'q' rfl (by decide)⟩

/-- C6 (code-bug evidence): the decode step of `capture_command_output` is
`output.decode('utf-8', errors='replace')`, which never raises, so the
lossless latin1 fallback in the `except` branch is dead code.  On the
invalid UTF-8 capture `[0xE2, 0x82]` the decoded analysis input is a single
U+FFFD replacement character: two captured bytes collapse into one
character, unlike the one-byte-one-character latin1 decoding the claim
describes, so captured bytes are in fact dropped from analysis. -/
theorem claim_C6 :
    decode_output [0xE2, 0x82] = [replacementChar] ∧
    (decode_output [0xE2, 0x82]).length = 1 ∧
    (latin1Decode [0xE2, 0x82]).length = 2 ∧
    decode_output [0xE2, 0x82] ≠ latin1Decode [0xE2, 0x82] := by decide

theorem interactiveLoop_forwarded (script : List InterEvent) :
    ∀ st : LoopState, ∃ l,
      (interactiveLoop script st).1.forwarded = st.forwarded ++ l ∧
      List.Sublist l (script.filterMap stdinCharOf) ∧
      '\x03' ∉ l := by
  induction script with
  | nil => intro st; exact ⟨[], by simp [interactiveLoop], List.nil_sublist _, by simp⟩
  | cons e rest ih =>
    intro st
    cases e with
    | procExit => exact ⟨[], by simp [interactiveLoop], List.nil_sublist _, by simp⟩
    | exn => exact ⟨[], by simp [interactiveLoop], List.nil_sublist _, by simp⟩
    | iter si mi =>
      cases si with
      | none =>
        have hfm : (InterEvent.iter none mi :: rest).filterMap stdinCharOf =
            rest.filterMap stdinCharOf := by simp [stdinCharOf]
        cases mi with
        | none =>
          obtain ⟨l, h1, h2, h3⟩ := ih st
          exact ⟨l, by simpa [interactiveLoop] using h1, by rw [hfm]; exact h2, h3⟩
        | some mr =>
          cases mr with
          | readErr => exact ⟨[], by simp [interactiveLoop], List.nil_sublist _, by simp⟩
          | data chunk =>
            cases chunk with
            | nil => exact ⟨[], by simp [interactiveLoop], List.nil_sublist _, by simp⟩
            | cons d ds =>
              obtain ⟨l, h1, h2, h3⟩ := ih { st with captured := st.captured ++ [d :: ds] }
              exact ⟨l, by simpa [interactiveLoop] using h1, by rw [hfm]; exact h2, h3⟩
      | some sr =>
        cases sr with
        | readErr =>
          exact ⟨[], by simp [interactiveLoop], List.nil_sublist _, by simp⟩
        | char c =>
          have hfm : (InterEvent.iter (some (.char c)) mi :: rest).filterMap stdinCharOf =
              c :: rest.filterMap stdinCharOf := by simp [stdinCharOf]
          by_cases hc : c = '\x03'
          · subst hc
            exact ⟨[], by simp [interactiveLoop], List.nil_sublist _, by simp⟩
          · cases mi with
            | none =>
              obtain ⟨l, h1, h2, h3⟩ := ih { st with forwarded := st.forwarded ++ [c] }
              refine ⟨c :: l, ?_, ?_, ?_⟩
              · simp only [interactiveLoop, if_neg hc]
                rw [h1]
                simp [List.append_assoc]
              · rw [hfm]; exact List.Sublist.cons₂ c h2
              · simp [h3, Ne.symm hc]
            | some mr =>
              cases mr with
              | readErr =>
                refine ⟨[c], by simp [interactiveLoop, hc], ?_, by simp [Ne.symm hc]⟩
                rw [hfm]; exact List.Sublist.cons₂ c (List.nil_sublist _)
              | data chunk =>
                cases chunk with
                | nil =>
                  refine ⟨[c], by simp [interactiveLoop, hc], ?_, by simp [Ne.symm hc]⟩
                  rw [hfm]; exact List.Sublist.cons₂ c (List.nil_sublist _)
                | cons d ds =>
                  obtain ⟨l, h1, h2, h3⟩ :=
                    ih { forwarded := st.forwarded ++ [c], captured := st.captured ++ [d :: ds] }
                  refine ⟨c :: l, ?_, ?_, ?_⟩
                  · simp only [interactiveLoop, if_neg hc]
                    rw [h1]
                    simp [List.append_assoc]
                  · rw [hfm]; exact List.Sublist.cons₂ c h2
                  · simp [h3, Ne.symm hc]

theorem interactiveLoop_all_stdin (cs : List Char) :
    ∀ st : LoopState, (∀ c ∈ cs, c ≠ '\x03') →
      interactiveLoop (cs.map (fun c => .iter (some (.char c)) none)) st =
        ({ forwarded := st.forwarded ++ cs, captured := st.captured }, .scriptEnd) := by
  induction cs with
  | nil => intro st h; simp [interactiveLoop]
  | cons c cs2 ih =>
    intro st h
    have hc : c ≠ '\x03' := h c (List.mem_cons_self c cs2)
    simp only [List.map_cons]
    have hstep :
        interactiveLoop
          (InterEvent.iter (some (.char c)) none :: cs2.map (fun c => .iter (some (.char c)) none)) st =
        interactiveLoop (cs2.map (fun c => .iter (some (.char c)) none))
          { forwarded := st.forwarded ++ [c], captured := st.captured } := by
      simp [interactiveLoop, hc]
    rw [hstep, ih _ (fun d hd => h d (List.mem_cons_of_mem c hd))]
    simp [List.append_assoc]

/-- C7 counterexample: the restore of the terminal input discipline in the
`finally` of `run_interactive` is itself wrapped in `try`/`except: pass`;
when `termios.tcsetattr` raises, the failure is swallowed and the session
ends with the raw discipline still installed.  Here raw mode was enabled
(stdin is a tty, `tcgetattr`/`setraw` succeeded), the restore call fails,
and after the session the terminal attribute value is the raw one (2000),
not the pre-session value (1000) — the discipline is not restored on every
exit path. -/
theorem claim_C7_counterexample :
    (run_interactive true true false 1000 2000 []).2 = 2000 ∧ (2000 : Nat) ≠ 1000 := by decide

/-- C7 (amended): in the `run_interactive` relay loop, a keyboard byte equal
to the interrupt byte 0x03 terminates the loop immediately — nothing more is
forwarded or captured, pending child output of the same iteration and the
whole rest of the session are not consumed, the byte itself is not
forwarded; every other keyboard byte is forwarded verbatim and in order
(the forwarded bytes never contain 0x03, they embed order-preservingly into
the session's keyboard bytes, and a session of plain keyboard bytes is
forwarded in full); and on every exit path — child exit, interrupt, read
errors, exceptions — the terminal attribute value after `run_interactive`
equals the pre-session value whenever raw mode was enabled, provided the
`tcsetattr` restore call itself succeeds (its failure is swallowed by
`except: pass` and leaves the raw discipline installed). -/
theorem claim_C7_amended :
    (∀ (st : LoopState) (mi : Option MasterRead) (rest : List InterEvent),
      interactiveLoop (.iter (some (.char '\x03')) mi :: rest) st = (st, .interrupted)) ∧
    (∀ script : List InterEvent,
      '\x03' ∉ (interactiveLoop script { forwarded := [], captured := [] }).1.forwarded ∧
      List.Sublist (interactiveLoop script { forwarded := [], captured := [] }).1.forwarded
        (script.filterMap stdinCharOf)) ∧
    (∀ cs : List Char, (∀ c ∈ cs, c ≠ '\x03') →
      (interactiveLoop (cs.map (fun c => .iter (some (.char c)) none))
        { forwarded := [], captured := [] }).1.forwarded = cs) ∧
    (∀ (isatty attrOk : Bool) (t0 traw : Nat) (script : List InterEvent),
      (run_interactive isatty attrOk true t0 traw script).2 = t0) := by
  refine ⟨?_, ?_, ?_, ?_⟩
  · intro st mi rest; rfl
  · intro script
    obtain ⟨l, h1, h2, h3⟩ := interactiveLoop_forwarded script { forwarded := [], captured := [] }
    rw [h1]
    simp only [List.nil_append]
    exact ⟨h3, h2⟩
  · intro cs h
    rw [interactiveLoop_all_stdin cs _ h]
    simp
  · intro isatty attrOk t0 traw script
    cases isatty <;> cases attrOk <;> rfl

theorem claim_C7_witness :
    (interactiveLoop (['a', 'b'].map (fun c => .iter (some (.char c)) none))
      { forwarded := [], captured := [] }).1.forwarded = ['a', 'b'] :=
  claim_C7_amended.2.2.1 ['a', 'b'] (by decide)

/-- C8 counterexample: when spawning the child raises (the `except Exception`
path of `capture_command_output`), the function returns the error tuple with
both pseudo-terminal descriptors still open: they are not released on that
exit path, contradicting release on every exit path. -/
theorem claim_C8_counterexample :
    (capture_command_output false []).2.masterOpen = true ∧
    (capture_command_output false []).2.slaveOpen = true := by decide

/-- C8 (amended): on every non-exception run of `capture_command_output`
(spawn succeeded; the drain loop ends by child exit, timeout, empty read or
read error) both descriptors are closed before returning — the subordinate
side right after the spawn and the controlling side after the drain loop;
but when an exception occurs after the pair is opened (e.g. the spawn
fails), the handler returns without closing either descriptor. -/
theorem claim_C8_amended (events : List DrainEvent) :
    (capture_command_output true events).2.masterOpen = false ∧
    (capture_command_output true events).2.slaveOpen = false := ⟨rfl, rfl⟩

theorem claim_C8_witness :
    (capture_command_output true [DrainEvent.data [0x68, 0x69], DrainEvent.procExit 0]).2.masterOpen = false ∧
    (capture_command_output true [DrainEvent.data [0x68, 0x69], DrainEvent.procExit 0]).2.slaveOpen = false :=
  claim_C8_amended [DrainEvent.data [0x68, 0x69], DrainEvent.procExit 0]

theorem collapseSpacesAux_mem (isS : Char → Bool) :
    ∀ (l : List Char) (flag : Bool) (c : Char),
      c ∈ collapseSpacesAux isS flag l → c = '_' ∨ (c ∈ l ∧ isS c = false) := by
  intro l
  induction l with
  | nil => intro flag c h; simp [collapseSpacesAux] at h
  | cons d ds ih =>
    intro flag c h
    simp only [collapseSpacesAux] at h
    split at h
    next hsp =>
      split at h
      next hfl =>
        rcases ih true c h with h1 | ⟨h2, h3⟩
        · exact Or.inl h1
        · exact Or.inr ⟨List.mem_cons_of_mem d h2, h3⟩
      next hfl =>
        rcases List.mem_cons.mp h with h1 | h1
        · exact Or.inl h1
        · rcases ih true c h1 with h2 | ⟨h2, h3⟩
          · exact Or.inl h2
          · exact Or.inr ⟨List.mem_cons_of_mem d h2, h3⟩
    next hsp =>
      rcases List.mem_cons.mp h with h1 | h1
      · subst h1
        exact Or.inr ⟨List.mem_cons_self c ds, by simpa using hsp⟩
      · rcases ih false c h1 with h2 | ⟨h2, h3⟩
        · exact Or.inl h2
        · exact Or.inr ⟨List.mem_cons_of_mem d h2, h3⟩

/-- C9: for every command and timestamp — and for the actual (Unicode-aware)
word and whitespace classes `isW`, `isS` of Python's regex engine, about
which only the true facts that the fallback names consist of word characters
are assumed — the log filename built by `generate_log_filename` is
`{timestamp}_{sanitized}.log` where the sanitized part contains only word
characters, hyphens and underscores (non-word, non-whitespace, non-hyphen
characters removed, whitespace runs collapsed to one underscore), is at most
50 characters long, and is replaced by the non-empty fallback `command` when
sanitisation leaves it empty; `_write_interactive_log` builds its filename
the same way with the non-empty fallback `interactive`. -/
theorem claim_C9 (isW isS : Char → Bool)
    (hwc : ∀ d ∈ "command".data, isW d = true)
    (timestamp : Nat) (command : List Char) :
    generate_log_filename isW isS timestamp command =
      toString timestamp ++ "_" ++
        (⟨sanitizeCommand isW isS command "command".data⟩ : String) ++ ".log" ∧
    (sanitizeCommand isW isS command "command".data).length ≤ 50 ∧
    sanitizeCommand isW isS command "command".data ≠ [] ∧
    (∀ c ∈ sanitizeCommand isW isS command "command".data,
      isW c = true ∨ c = '-' ∨ c = '_') ∧
    interactive_log_filename isW isS timestamp command =
      toString timestamp ++ "_" ++
        (⟨sanitizeCommand isW isS command "interactive".data⟩ : String) ++ ".log" ∧
    sanitizeCommand isW isS command "interactive".data ≠ [] := by
  refine ⟨rfl, ?_, ?_, ?_, rfl, ?_⟩
  · unfold sanitizeCommand
    split
    · decide
    · exact List.length_take_le _ _
  · unfold sanitizeCommand
    split
    · decide
    next hne => exact hne
  · intro c hc
    unfold sanitizeCommand at hc
    split at hc
    · exact Or.inl (hwc c hc)
    next hne =>
      have hc2 := List.take_subset _ _ hc
      rcases collapseSpacesAux_mem isS _ false c hc2 with h1 | ⟨h2, h3⟩
      · exact Or.inr (Or.inr h1)
      · have hp := (List.mem_filter.mp h2).2
        simp only [h3, Bool.or_false, Bool.false_or, Bool.or_eq_true,
          decide_eq_true_eq] at hp
        rcases hp with hp | hp
        · exact Or.inl hp
        · exact Or.inr (Or.inl hp)
  · unfold sanitizeCommand
    split
    · decide
    next hne => exact hne

theorem claim_C9_witness :
    (sanitizeCommand asciiWordChar asciiSpace "git status".data "command".data).length ≤ 50 ∧
    (asciiWordChar 'g' = true ∨ 'g' = '-' ∨ 'g' = '_') ∧
    generate_log_filename asciiWordChar asciiSpace 1700000000 "git status".data =
      toString 1700000000 ++ "_" ++
        (⟨sanitizeCommand asciiWordChar asciiSpace "git status".data "command".data⟩ : String) ++
        ".log" :=
  ⟨(claim_C9 asciiWordChar asciiSpace (by decide) 1700000000 "git status".data).2.1,
   (claim_C9 asciiWordChar asciiSpace (by decide) 1700000000 "git status".data).2.2.2.1 'g'
     (by decide),
   (claim_C9 asciiWordChar asciiSpace (by decide) 1700000000 "git status".data).1⟩

end Rawansi
